/-
Verification of the EVSE load-balancer core
(custom_components/evse_load_balancer): a shallow embedding of
`power_allocator.py` (ChargerState, PowerAllocator) and of the gating
policy in `coordinator.py`, with theorems about the allocation
algorithms.

Modelling conventions:
* Python `dict[Phase, int]` values returned by charger adapters are
  total functions `Phase → ℤ` (every adapter in the repository returns
  a value for all three phases); `None` is `Option.none`.
* The allocator's result dictionary is an association list
  `List (String × (Phase → ℤ))` in insertion order, mirroring the
  Python dict.
* Python float arithmetic (`current / total_current`, `deficit *
  proportion`) is modelled exactly: `floor(deficit * (current /
  total))` is `Int.fdiv (deficit * current) total` (the theorems
  `fdiv_eq_floor_ratCast_div` and `min_fdiv_eq_floor_min` relate these
  integer forms to the rational `⌊·⌋` formulas of the specification),
  and Python `int()` applied to the non-negative `increase` is the
  same floor.
* The wall clock `time()` is passed explicitly as `now`.
-/
import Mathlib

namespace EvseLB

/-- The three mains phases (`const.Phase`). -/
inductive Phase where
  | L1
  | L2
  | L3
deriving DecidableEq, Repr, Fintype

/-- All phases, in enum order. -/
def phaseList : List Phase := [Phase.L1, Phase.L2, Phase.L3]

/-- Python `any(f(p) for p in <all phases>)`. -/
def phaseAny (f : Phase → Bool) : Bool := phaseList.any f

/-- Python dict equality on per-phase maps. -/
def eqDict (a b : Phase → ℤ) : Bool := phaseList.all fun p => a p == b p

/-- The static data and adapter readings of one charger, as seen
through the `Charger` interface used by `power_allocator.py`:
`can_charge()`, `has_synced_phase_limits()`,
`current_change_settle_time`, `get_current_limit()`,
`get_max_current_limit()`. -/
structure Charger where
  can_charge : Bool
  has_synced_phase_limits : Bool
  current_change_settle_time : ℤ
  get_current_limit : Option (Phase → ℤ)
  get_max_current_limit : Option (Phase → ℤ)

/-- `ChargerState` of `power_allocator.py`. -/
structure ChargerState where
  charger : Charger
  requested_current : Option (Phase → ℤ) := none
  last_calculated_current : Option (Phase → ℤ) := none
  last_applied_current : Option (Phase → ℤ) := none
  last_update_time : ℤ := 0
  manual_override_detected : Bool := false
  initialized : Bool := false
  active_session : Bool := false

namespace ChargerState

/-- `ChargerState.get_current_limit`: within the settle window return
what was last applied, else the adapter's reading. -/
def get_current_limit (s : ChargerState) (now : ℤ) : Option (Phase → ℤ) :=
  if now - s.last_update_time < s.charger.current_change_settle_time then
    s.last_applied_current
  else
    s.charger.get_current_limit

/-- `ChargerState.initialize` (the Python name is a Lean keyword):
returns the updated state and the boolean result. -/
def initState (s : ChargerState) : ChargerState × Bool :=
  if s.initialized then (s, true)
  else
    match s.charger.get_current_limit with
    | some current_limits =>
        ({ s with
            requested_current := some current_limits
            last_applied_current := some current_limits
            active_session := s.charger.can_charge
            initialized := true }, true)
    | none => (s, false)

/-- `ChargerState.detect_manual_override`. -/
def detect_manual_override (s : ChargerState) (now : ℤ) : ChargerState :=
  match s.get_current_limit now with
  | none => s
  | some current_setting =>
    let is_charging := s.charger.can_charge
    let s1 :=
      if is_charging && !s.active_session then
        match s.charger.get_max_current_limit with
        | some max_limits =>
            { s with requested_current := some max_limits, active_session := true }
        | none => s
      else if (match s.last_applied_current with
               | some la => phaseAny fun p => current_setting p != la p
               | none => false)
              && (match s.requested_current with
                  | some r => !eqDict current_setting r
                  | none => true) then
        { s with
            requested_current := some current_setting
            manual_override_detected := true }
      else s
    { s1 with active_session := is_charging }

end ChargerState

/-- Association-list lookup by key (Python `d[k]` / `k in d`). -/
def getEntry {α : Type} : List (String × α) → String → Option α
  | [], _ => none
  | (k, v) :: rest, id => if k = id then some v else getEntry rest id

/-- Python `if k not in d: d[k] = v0` followed by a write of `v`:
update the entry in place when the key exists, append otherwise. -/
def setEntry {α : Type} : List (String × α) → String → α → List (String × α)
  | [], id, v => [(id, v)]
  | (k, w) :: rest, id, v =>
      if k = id then (k, v) :: rest else (k, w) :: setEntry rest id v

/-- `PowerAllocator`: the managed chargers, keyed by id, in insertion
order. -/
structure PowerAllocator where
  chargers : List (String × ChargerState)

namespace PowerAllocator

/-- The allocation result dictionary. -/
abbrev Result := List (String × (Phase → ℤ))

/-- `PowerAllocator._active_chargers`: chargers that can take a
charge. -/
def active_chargers (a : PowerAllocator) : List (String × ChargerState) :=
  a.chargers.filter fun e => e.2.charger.can_charge

/-- The first pass of `_distribute_cuts`: `(charger_id, current)` for
every active charger with a readable current limit. -/
def chargerCurrents (a : PowerAllocator) (now : ℤ) (phase : Phase) :
    List (String × ℤ) :=
  a.active_chargers.filterMap fun e =>
    (e.2.get_current_limit now).map fun cs => (e.1, cs phase)

/-- `total_current` of `_distribute_cuts`. -/
def totalCurrent (a : PowerAllocator) (now : ℤ) (phase : Phase) : ℤ :=
  ((a.chargerCurrents now phase).map Prod.snd).sum

/-- The body of the second loop of `_distribute_cuts` for one
`(charger_id, current)` pair. -/
def cutStep (a : PowerAllocator) (now : ℤ) (phase : Phase) (deficit : ℤ)
    (total : ℤ) (res : Result) (pair : String × ℤ) : Result :=
  match (getEntry a.chargers pair.1).bind fun st => st.get_current_limit now with
  | none => res
  | some current_setting =>
      -- Python: `cut = floor(deficit * (current / total_current))`,
      -- computed exactly: `⌊deficit·(c/T)⌋ = Int.fdiv (deficit·c) T`.
      let cut : ℤ := Int.fdiv (deficit * pair.2) total
      let base := (getEntry res pair.1).getD current_setting
      setEntry res pair.1
        (Function.update base phase (max 0 (current_setting phase + cut)))

/-- `PowerAllocator._distribute_cuts`. -/
def distribute_cuts (a : PowerAllocator) (now : ℤ) (phase : Phase)
    (deficit : ℤ) (result : Result) : Result :=
  let charger_currents := a.chargerCurrents now phase
  let total_current := (charger_currents.map Prod.snd).sum
  if total_current = 0 then result
  else charger_currents.foldl (a.cutStep now phase deficit total_current) result

/-- The first pass of `_distribute_increases`: `(charger_id,
potential)` for every active charger with readable limit and
requested current strictly above the current setting. -/
def potentialIncreases (a : PowerAllocator) (now : ℤ) (phase : Phase) :
    List (String × ℤ) :=
  a.active_chargers.filterMap fun e =>
    match e.2.get_current_limit now, e.2.requested_current with
    | some cs, some req =>
        if req phase > cs phase then some (e.1, req phase - cs phase) else none
    | _, _ => none

/-- `total_potential` of `_distribute_increases`. -/
def totalPotential (a : PowerAllocator) (now : ℤ) (phase : Phase) : ℤ :=
  ((a.potentialIncreases now phase).map Prod.snd).sum

/-- The body of the second loop of `_distribute_increases` for one
`(charger_id, potential)` pair. -/
def increaseStep (a : PowerAllocator) (now : ℤ) (phase : Phase) (surplus : ℤ)
    (total : ℤ) (res : Result) (pair : String × ℤ) : Result :=
  match (getEntry a.chargers pair.1).bind fun st => st.get_current_limit now with
  | none => res
  | some current_setting =>
      -- Python: `increase = min(surplus * (potential / total_potential),
      -- potential)` followed by `int(increase)`.  At every call site
      -- surplus, potential and total are positive, so `int()` is the
      -- floor and `⌊min(s·p/P, p)⌋ = min (Int.fdiv (s·p) P) p`.
      let increase : ℤ := min (Int.fdiv (surplus * pair.2) total) pair.2
      let base := (getEntry res pair.1).getD current_setting
      setEntry res pair.1
        (Function.update base phase (current_setting phase + increase))

/-- `PowerAllocator._distribute_increases`. -/
def distribute_increases (a : PowerAllocator) (now : ℤ) (phase : Phase)
    (surplus : ℤ) (result : Result) : Result :=
  let potential_increases := a.potentialIncreases now phase
  let total_potential := (potential_increases.map Prod.snd).sum
  if total_potential = 0 then result
  else
    potential_increases.foldl (a.increaseStep now phase surplus total_potential)
      result

/-- The per-phase dispatch of `_allocate_current`:
cuts for negative availability, increases for positive. -/
def allocatePhase (a : PowerAllocator) (now : ℤ)
    (avail : Phase → Option ℤ) (res : Result) (phase : Phase) : Result :=
  match avail phase with
  | none => res
  | some available_current =>
      if available_current < 0 then a.distribute_cuts now phase available_current res
      else if available_current > 0 then
        a.distribute_increases now phase available_current res
      else res

/-- `processed_phases = set(available_currents.keys())`: every phase
present in the availability dict, zero deltas included. -/
def processedPhases (avail : Phase → Option ℤ) : List Phase :=
  phaseList.filter fun p => (avail p).isSome

/-- The synced-phase flattening step of `_allocate_current` for one
result entry. -/
def flattenEntry (a : PowerAllocator) (avail : Phase → Option ℤ)
    (id : String) (currents : Phase → ℤ) : Phase → ℤ :=
  match getEntry (a.active_chargers) id with
  | none => currents
  | some st =>
      if st.charger.has_synced_phase_limits then
        match ((processedPhases avail).map currents).min? with
        | some m => fun _ => m
        | none => currents
      else currents

/-- `PowerAllocator._allocate_current` before flattening: the loop
over the phases of `available_currents`. -/
def rawAllocate (a : PowerAllocator) (now : ℤ) (avail : Phase → Option ℤ) :
    Result :=
  phaseList.foldl (a.allocatePhase now avail) []

/-- `PowerAllocator._allocate_current`. -/
def allocate_current (a : PowerAllocator) (now : ℤ)
    (avail : Phase → Option ℤ) : Result :=
  (a.rawAllocate now avail).map fun e => (e.1, a.flattenEntry avail e.1 e.2)

/-- `PowerAllocator.update_applied_current`. When the charger id is
unknown the Python code logs a warning but does not return, and the
following subscript raises `KeyError`; this is the `none` result. -/
def update_applied_current (a : PowerAllocator) (charger_id : String)
    (applied_current : Phase → ℤ) (timestamp : ℤ) : Option PowerAllocator :=
  match getEntry a.chargers charger_id with
  | none => none
  | some _ =>
      some ⟨a.chargers.map fun e =>
        (e.1,
          if e.1 = charger_id then
            { e.2 with
                last_applied_current := some applied_current
                last_update_time := timestamp }
          else e.2)⟩

end PowerAllocator

/-- All per-phase current limits readable through
`ChargerState.get_current_limit` at time `now` are non-negative (true
of every physical charger adapter). -/
abbrev NonnegLimits (a : PowerAllocator) (now : ℤ) : Prop :=
  ∀ pr ∈ a.chargers,
    ∀ p, 0 ≤ ((ChargerState.get_current_limit pr.2 now).getD fun _ => 0) p

/-- The set of phases the claim reads step 4 of `_allocate_current`
over: exactly the phases with a nonzero delta (a phase absent from
the dict has no delta). -/
def claimProcessedPhases (avail : Phase → Option ℤ) : List Phase :=
  phaseList.filter fun p => (avail p).getD 0 ≠ 0

/-- `MIN_CHARGER_UPDATE_DELAY` of `coordinator.py`. -/
def MIN_CHARGER_UPDATE_DELAY : ℤ := 20

/-- `EVSELoadBalancerCoordinator._may_update_charger_settings`,
as a function of the two coordinator timestamps, the configured
hysteresis (minutes), the proposal, the current limits and the tick
timestamp. -/
def may_update_charger_settings (last_charger_update_time : Option ℤ)
    (last_decrease_time : Option ℤ) (hysteresis_minutes : ℤ)
    (new_settings current_limits : Phase → ℤ) (timestamp : ℤ) : Bool :=
  match last_charger_update_time with
  | none => true
  | some last_update_time =>
      if phaseAny (fun p => new_settings p < current_limits p) then true
      else if timestamp - last_update_time ≤ MIN_CHARGER_UPDATE_DELAY then false
      else
        let ldt := last_decrease_time.getD last_update_time
        if phaseAny (fun p => new_settings p > current_limits p)
            && timestamp - ldt > hysteresis_minutes * 60 then true
        else false

/-- `EVSELoadBalancerCoordinator.get_available_current_for_phase`:
`min(fuse_size, floor(fuse_size - active_current))` (integer inputs,
so the floor is exact). -/
def get_available_current_for_phase (fuse_size : ℤ)
    (active_current : Option ℤ) : Option ℤ :=
  active_current.map fun c => min fuse_size (fuse_size - c)


/-! ### Concrete fixtures

Concrete chargers and allocators used by the witnesses and
counterexamples.  All of them describe states reachable through the
coordinator: an initialized charger with an active session whose
settle window has expired (`last_update_time = 0`, `now = 100`,
settle time 10 s). -/

/-- A charger that reports the same limit on all three phases. -/
def mkCharger (cur : ℤ) (maxc : ℤ) (synced : Bool) : Charger :=
  { can_charge := true
    has_synced_phase_limits := synced
    current_change_settle_time := 10
    get_current_limit := some fun _ => cur
    get_max_current_limit := some fun _ => maxc }

/-- An initialized charger state in an active session. -/
def mkState (c : Charger) (req : ℤ) : ChargerState :=
  { charger := c
    requested_current := some fun _ => req
    last_applied_current := c.get_current_limit
    last_update_time := 0
    initialized := true
    active_session := true }

/-- Spec scenario 3: two active chargers at 10 A and 16 A. -/
def allocTwo : PowerAllocator :=
  ⟨[("c1", mkState (mkCharger 10 16 false) 10),
    ("c2", mkState (mkCharger 16 16 false) 16)]⟩

/-- Spec scenario 3's deltas: `{L1: -4}`. -/
def availTwo : Phase → Option ℤ
  | Phase.L1 => some (-4)
  | _ => none

/-- Two chargers that have been cut to 7 A and 8 A with requested
currents 16 A, for the recovery witness. -/
def allocRecover : PowerAllocator :=
  ⟨[("c1", mkState (mkCharger 7 16 false) 16),
    ("c2", mkState (mkCharger 8 16 false) 16)]⟩

/-- A synced-phase charger with asymmetric per-phase limits. -/
def syncCharger : Charger :=
  { can_charge := true
    has_synced_phase_limits := true
    current_change_settle_time := 10
    get_current_limit := some fun p => match p with
      | Phase.L1 => 10
      | Phase.L2 => 5
      | Phase.L3 => 3
    get_max_current_limit := some fun _ => 16 }

/-- Allocator holding the synced charger. -/
def allocSync : PowerAllocator := ⟨[("c1", mkState syncCharger 16)]⟩

/-- Deltas `{L1: +2, L3: 0}` (`L2` absent): `L1` is the only phase
with a nonzero delta, yet `L3` is present in the dict. -/
def availSync : Phase → Option ℤ
  | Phase.L1 => some 2
  | Phase.L2 => none
  | Phase.L3 => some 0

/-- A charger limited to 10 A whose user-requested current is 32 A,
above the 25 A fuse of the counterexample scenario. -/
def alloc32 : PowerAllocator :=
  ⟨[("c1", mkState (mkCharger 10 32 false) 32)]⟩

/-- Deltas computed by the coordinator for fuse size 25 A and a meter
reading of 0 A on L1 (pass-through in conservative mode). -/
def avail32 : Phase → Option ℤ
  | Phase.L1 => get_available_current_for_phase 25 (some 0)
  | _ => none

/-- A charger in a fresh session (`active_session = false`) whose
adapter cannot report a maximum yet. -/
def noMaxState : ChargerState :=
  { charger :=
      { can_charge := true
        has_synced_phase_limits := false
        current_change_settle_time := 10
        get_current_limit := some fun _ => 10
        get_max_current_limit := none }
    requested_current := some fun _ => 10
    last_applied_current := some fun _ => 10
    last_update_time := 0
    initialized := true
    active_session := false }

/-- The same charger one tick later, when the adapter's maximum
(16 A) has become available. -/
def withMax (s : ChargerState) : ChargerState :=
  { s with charger := { s.charger with get_max_current_limit := some fun _ => 16 } }

/-- Spec scenario 4 (adjusted so the increase is feasible): a synced
charger at 16 A with requested current 18 A. -/
def allocSync16 : PowerAllocator := ⟨[("c1", mkState (mkCharger 16 32 true) 18)]⟩

/-- Spec scenario 4's deltas `{L1: -1, L2: +2, L3: 0}`. -/
def availSpec4 : Phase → Option ℤ
  | Phase.L1 => some (-1)
  | Phase.L2 => some 2
  | Phase.L3 => some 0

/-- Scenario 6 of the spec: requested 32 A, the balancer applied
27 A, and the slow adapter still reports 32 A. -/
def slowA : ChargerState :=
  { charger := { (mkCharger 32 32 false) with get_current_limit := some fun _ => 32 }
    requested_current := some fun _ => 32
    last_applied_current := some fun _ => 27
    last_update_time := 0
    initialized := true
    active_session := true }

/-- Scenario 6, second reading: the adapter now reports the applied
27 A. -/
def slowB : ChargerState :=
  { slowA with charger := { slowA.charger with get_current_limit := some fun _ => 27 } }

/-! ### Arithmetic bridges

The Python code computes its proportional shares in floating point;
the model computes them exactly.  These lemmas relate the integer
floor divisions used in the definitions to the rational `⌊·⌋`
formulas of the specification. -/

/-- Flooring division commutes with negating both arguments. -/
theorem fdiv_neg_neg (a b : ℤ) : Int.fdiv (-a) (-b) = Int.fdiv a b := by
  rcases a with (_ | m) | m <;> rcases b with (_ | n) | n <;>
    first
      | rfl
      | simp [Int.ofNat_zero]

/-- `Int.fdiv` by a natural number is the floor of the exact rational
quotient. -/
theorem fdiv_natCast_eq_floor (a : ℤ) (n : ℕ) :
    Int.fdiv a (n : ℤ) = ⌊(a : ℚ) / (n : ℚ)⌋ := by
  rw [Int.fdiv_eq_ediv _ (by positivity)]
  exact (Rat.floor_intCast_div_natCast a n).symm

/-- `Int.fdiv` is the floor of the exact rational quotient. -/
theorem fdiv_eq_floor_ratCast_div (a b : ℤ) :
    Int.fdiv a b = ⌊(a : ℚ) / (b : ℚ)⌋ := by
  rcases le_or_lt 0 b with hb | hb
  · obtain ⟨n, rfl⟩ : ∃ n : ℕ, b = (n : ℤ) := ⟨b.toNat, by omega⟩
    rw [fdiv_natCast_eq_floor]
    norm_num
  · have hb' : b = -(((-b).toNat : ℕ) : ℤ) := by omega
    have e1 : Int.fdiv a (-(((-b).toNat : ℕ) : ℤ))
        = Int.fdiv (-a) (((-b).toNat : ℕ) : ℤ) := by
      rw [← fdiv_neg_neg (-a) (((-b).toNat : ℕ) : ℤ), neg_neg]
    rw [hb', e1, fdiv_natCast_eq_floor]
    congr 1
    push_cast
    ring

/-- The `increase` of `_distribute_increases` is the floor of the
rational `min(surplus · potential / total, potential)`. -/
theorem min_fdiv_eq_floor_min (s p t : ℤ) :
    min (Int.fdiv (s * p) t) p = ⌊min ((s : ℚ) * p / t) (p : ℚ)⌋ := by
  have h := Monotone.map_min (f := fun q : ℚ => ⌊q⌋) Int.floor_mono
    (a := (s : ℚ) * p / t) (b := (p : ℚ))
  simp only at h
  rw [h, fdiv_eq_floor_ratCast_div, Int.floor_intCast]
  congr 2
  push_cast
  ring


/-! ### Phase and dictionary helpers -/

theorem mem_phaseList (p : Phase) : p ∈ phaseList := by
  cases p <;> simp [phaseList]

theorem phaseAny_iff (f : Phase → Bool) : phaseAny f = true ↔ ∃ p, f p = true := by
  constructor
  · intro h
    rcases List.any_eq_true.mp h with ⟨p, _, hp⟩
    exact ⟨p, hp⟩
  · rintro ⟨p, hp⟩
    exact List.any_eq_true.mpr ⟨p, mem_phaseList p, hp⟩

theorem eqDict_iff (a b : Phase → ℤ) : eqDict a b = true ↔ ∀ p, a p = b p := by
  unfold eqDict
  rw [List.all_eq_true]
  constructor
  · intro h p
    exact eq_of_beq (h p (mem_phaseList p))
  · intro h p _
    exact beq_iff_eq.mpr (h p)

theorem getEntry_mem {α : Type} {l : List (String × α)} {id : String} {v : α}
    (h : getEntry l id = some v) : (id, v) ∈ l := by
  induction l with
  | nil => simp [getEntry] at h
  | cons e rest ih =>
      obtain ⟨k, w⟩ := e
      simp only [getEntry] at h
      by_cases hk : k = id
      · rw [if_pos hk] at h
        injection h with h
        rw [← hk, ← h]
        exact List.mem_cons_self _ _
      · rw [if_neg hk] at h
        exact List.mem_cons_of_mem _ (ih h)

theorem getEntry_of_mem {α : Type} {l : List (String × α)} {id : String} {v : α}
    (hn : (l.map Prod.fst).Nodup) (h : (id, v) ∈ l) : getEntry l id = some v := by
  induction l with
  | nil => simp at h
  | cons e rest ih =>
      obtain ⟨k, w⟩ := e
      rw [List.map_cons] at hn
      have hn2 := List.nodup_cons.mp hn
      rcases List.mem_cons.mp h with h1 | h1
      · obtain ⟨hk, hv⟩ : id = k ∧ v = w := by simpa using h1
        rw [← hk, ← hv]
        simp [getEntry]
      · have hk : k ≠ id := by
          rintro rfl
          exact hn2.1 (List.mem_map.mpr ⟨(k, v), h1, rfl⟩)
        simp only [getEntry]
        rw [if_neg hk]
        exact ih hn2.2 h1

theorem getEntry_setEntry_self {α : Type} (r : List (String × α)) (id : String)
    (v : α) : getEntry (setEntry r id v) id = some v := by
  induction r with
  | nil => simp [setEntry, getEntry]
  | cons e rest ih =>
      obtain ⟨k, w⟩ := e
      by_cases hk : k = id
      · simp [setEntry, getEntry, hk]
      · simp only [setEntry]
        rw [if_neg hk]
        simp only [getEntry]
        rw [if_neg hk]
        exact ih

theorem getEntry_setEntry_ne {α : Type} (r : List (String × α)) (j id : String)
    (v : α) (h : j ≠ id) : getEntry (setEntry r j v) id = getEntry r id := by
  induction r with
  | nil => simp [setEntry, getEntry, h]
  | cons e rest ih =>
      obtain ⟨k, w⟩ := e
      by_cases hk : k = j
      · simp only [setEntry]
        rw [if_pos hk]
        simp only [getEntry]
        rw [if_neg (by rw [hk]; exact h), if_neg (by rw [hk]; exact h)]
      · simp only [setEntry]
        rw [if_neg hk]
        simp only [getEntry]
        by_cases hk2 : k = id
        · rw [if_pos hk2, if_pos hk2]
        · rw [if_neg hk2, if_neg hk2]
          exact ih

theorem mem_setEntry {α : Type} {r : List (String × α)} {id : String} {v : α}
    {x : String × α} (h : x ∈ setEntry r id v) : x ∈ r ∨ x = (id, v) := by
  induction r with
  | nil => simp [setEntry] at h; simp [h]
  | cons e rest ih =>
      obtain ⟨k, w⟩ := e
      simp only [setEntry] at h
      by_cases hk : k = id
      · rw [if_pos hk] at h
        rcases List.mem_cons.mp h with h1 | h1
        · right; rw [h1, hk]
        · left; exact List.mem_cons_of_mem _ h1
      · rw [if_neg hk] at h
        rcases List.mem_cons.mp h with h1 | h1
        · left; rw [h1]; exact List.mem_cons_self _ _
        · rcases ih h1 with h2 | h2
          · left; exact List.mem_cons_of_mem _ h2
          · right; exact h2

theorem getEntry_map_value {α β : Type} (l : List (String × α))
    (f : String → α → β) (id : String) :
    getEntry (l.map fun e => (e.1, f e.1 e.2)) id = (getEntry l id).map (f id) := by
  induction l with
  | nil => simp [getEntry]
  | cons e rest ih =>
      obtain ⟨k, w⟩ := e
      simp only [List.map_cons, getEntry]
      by_cases hk : k = id
      · rw [if_pos hk, if_pos hk, hk]
        rfl
      · rw [if_neg hk, if_neg hk]
        exact ih

theorem keys_filterMap_sublist {α β : Type} (l : List (String × α))
    (f : String × α → Option (String × β))
    (hf : ∀ e x, f e = some x → x.1 = e.1) :
    ((l.filterMap f).map Prod.fst).Sublist (l.map Prod.fst) := by
  induction l with
  | nil => simp
  | cons e rest ih =>
      rw [List.filterMap_cons]
      cases hfe : f e with
      | none =>
          rw [List.map_cons]
          exact ih.cons _
      | some x =>
          rw [List.map_cons, List.map_cons, hf e x hfe]
          exact ih.cons₂ _


namespace PowerAllocator

/-! ### Allocator structure lemmas -/

theorem keys_active_nodup (a : PowerAllocator)
    (hn : (a.chargers.map Prod.fst).Nodup) :
    (a.active_chargers.map Prod.fst).Nodup :=
  List.Nodup.sublist (List.Sublist.map Prod.fst (List.filter_sublist _)) hn

theorem getEntry_active (a : PowerAllocator) {id : String} {st : ChargerState}
    (hn : (a.chargers.map Prod.fst).Nodup)
    (hc : getEntry a.chargers id = some st)
    (hact : st.charger.can_charge = true) :
    getEntry a.active_chargers id = some st := by
  apply getEntry_of_mem (keys_active_nodup a hn)
  exact List.mem_filter.mpr ⟨getEntry_mem hc, hact⟩

theorem keys_chargerCurrents_nodup (a : PowerAllocator) (now : ℤ) (phase : Phase)
    (hn : (a.chargers.map Prod.fst).Nodup) :
    ((a.chargerCurrents now phase).map Prod.fst).Nodup := by
  apply List.Nodup.sublist _ (keys_active_nodup a hn)
  apply keys_filterMap_sublist
  intro e x hfe
  cases hgl : e.2.get_current_limit now with
  | none =>
      rw [hgl] at hfe
      exact absurd hfe (by simp)
  | some cs =>
      rw [hgl] at hfe
      have h2 : some (e.1, cs phase) = some x := hfe
      injection h2 with h2
      rw [← h2]

theorem keys_potentialIncreases_nodup (a : PowerAllocator) (now : ℤ)
    (phase : Phase) (hn : (a.chargers.map Prod.fst).Nodup) :
    ((a.potentialIncreases now phase).map Prod.fst).Nodup := by
  apply List.Nodup.sublist _ (keys_active_nodup a hn)
  apply keys_filterMap_sublist
  intro e x hfe
  cases hgl : e.2.get_current_limit now with
  | none =>
      rw [hgl] at hfe
      exact absurd hfe (by simp)
  | some cs =>
      cases hrq : e.2.requested_current with
      | none =>
          rw [hgl, hrq] at hfe
          exact absurd hfe (by simp)
      | some req =>
          rw [hgl, hrq] at hfe
          have h2 : (if req phase > cs phase
              then some (e.1, req phase - cs phase) else none) = some x := hfe
          by_cases hgt : req phase > cs phase
          · rw [if_pos hgt] at h2
            injection h2 with h2
            rw [← h2]
          · rw [if_neg hgt] at h2
            exact absurd h2 (by simp)

theorem mem_chargerCurrents (a : PowerAllocator) {now : ℤ} {phase : Phase}
    {id : String} {st : ChargerState} {cs : Phase → ℤ}
    (hc : getEntry a.chargers id = some st)
    (hact : st.charger.can_charge = true)
    (hcs : st.get_current_limit now = some cs) :
    (id, cs phase) ∈ a.chargerCurrents now phase := by
  apply List.mem_filterMap.mpr
  refine ⟨(id, st), List.mem_filter.mpr ⟨getEntry_mem hc, hact⟩, ?_⟩
  rw [hcs]
  rfl

theorem mem_potentialIncreases (a : PowerAllocator) {now : ℤ} {phase : Phase}
    {id : String} {st : ChargerState} {cs req : Phase → ℤ}
    (hc : getEntry a.chargers id = some st)
    (hact : st.charger.can_charge = true)
    (hcs : st.get_current_limit now = some cs)
    (hreq : st.requested_current = some req)
    (hgt : req phase > cs phase) :
    (id, req phase - cs phase) ∈ a.potentialIncreases now phase := by
  apply List.mem_filterMap.mpr
  refine ⟨(id, st), List.mem_filter.mpr ⟨getEntry_mem hc, hact⟩, ?_⟩
  rw [hcs, hreq]
  show (if req phase > cs phase
      then some ((id, st).1, req phase - cs phase) else none) = _
  rw [if_pos hgt]

/-! ### The second loop of `_distribute_cuts` -/

theorem cutStep_getEntry_ne (a : PowerAllocator) (now : ℤ) (phase : Phase)
    (deficit total : ℤ) (res : Result) (pr : String × ℤ)
    (id : String) (h : pr.1 ≠ id) :
    getEntry (a.cutStep now phase deficit total res pr) id = getEntry res id := by
  unfold cutStep
  split
  · rfl
  · exact getEntry_setEntry_ne _ _ _ _ h

theorem cutStep_getEntry_self (a : PowerAllocator) (now : ℤ) (phase : Phase)
    (deficit total : ℤ) (res : Result) (pr : String × ℤ)
    (cs : Phase → ℤ)
    (hcs : ((getEntry a.chargers pr.1).bind fun st => st.get_current_limit now)
      = some cs) :
    getEntry (a.cutStep now phase deficit total res pr) pr.1 =
      some (Function.update ((getEntry res pr.1).getD cs) phase
        (max 0 (cs phase + Int.fdiv (deficit * pr.2) total))) := by
  unfold cutStep
  rw [hcs]
  exact getEntry_setEntry_self _ _ _

theorem foldl_cutStep_not_mem (a : PowerAllocator) (now : ℤ) (phase : Phase)
    (deficit total : ℤ) :
    ∀ (L : List (String × ℤ)) (res : Result) (id : String),
      id ∉ L.map Prod.fst →
      getEntry (L.foldl (a.cutStep now phase deficit total) res) id
        = getEntry res id := by
  intro L
  induction L with
  | nil => intro res id _; rfl
  | cons pr rest ih =>
      intro res id hid
      simp only [List.map_cons, List.mem_cons, not_or] at hid
      rw [List.foldl_cons, ih _ id hid.2,
        cutStep_getEntry_ne a now phase deficit total res pr id
          fun he => hid.1 he.symm]

theorem foldl_cutStep_write (a : PowerAllocator) (now : ℤ) (phase : Phase)
    (deficit total : ℤ) :
    ∀ (L : List (String × ℤ)) (res : Result) (id : String)
      (c : ℤ) (cs : Phase → ℤ),
      (L.map Prod.fst).Nodup → (id, c) ∈ L →
      ((getEntry a.chargers id).bind fun st => st.get_current_limit now)
        = some cs →
      getEntry (L.foldl (a.cutStep now phase deficit total) res) id =
        some (Function.update ((getEntry res id).getD cs) phase
          (max 0 (cs phase + Int.fdiv (deficit * c) total))) := by
  intro L
  induction L with
  | nil => intro res id c cs _ hmem _; simp at hmem
  | cons pr rest ih =>
      intro res id c cs hn hmem hcs
      rw [List.map_cons] at hn
      have hn2 := List.nodup_cons.mp hn
      rw [List.foldl_cons]
      rcases List.mem_cons.mp hmem with h1 | h1
      · have hpr1 : pr.1 = id := by rw [← h1]
        have hpr2 : pr.2 = c := by rw [← h1]
        have hnotin : id ∉ rest.map Prod.fst := by rw [← hpr1]; exact hn2.1
        rw [foldl_cutStep_not_mem a now phase deficit total rest _ id hnotin,
          ← hpr1, ← hpr2]
        rw [← hpr1] at hcs
        exact cutStep_getEntry_self a now phase deficit total res pr cs hcs
      · have hpr1 : pr.1 ≠ id := by
          rintro rfl
          exact hn2.1 (List.mem_map.mpr ⟨(pr.1, c), h1, rfl⟩)
        rw [ih _ id c cs hn2.2 h1 hcs,
          cutStep_getEntry_ne a now phase deficit total res pr id hpr1]

/-! ### The second loop of `_distribute_increases` -/

theorem increaseStep_getEntry_ne (a : PowerAllocator) (now : ℤ) (phase : Phase)
    (surplus total : ℤ) (res : Result) (pr : String × ℤ)
    (id : String) (h : pr.1 ≠ id) :
    getEntry (a.increaseStep now phase surplus total res pr) id
      = getEntry res id := by
  unfold increaseStep
  split
  · rfl
  · exact getEntry_setEntry_ne _ _ _ _ h

theorem increaseStep_getEntry_self (a : PowerAllocator) (now : ℤ) (phase : Phase)
    (surplus total : ℤ) (res : Result) (pr : String × ℤ)
    (cs : Phase → ℤ)
    (hcs : ((getEntry a.chargers pr.1).bind fun st => st.get_current_limit now)
      = some cs) :
    getEntry (a.increaseStep now phase surplus total res pr) pr.1 =
      some (Function.update ((getEntry res pr.1).getD cs) phase
        (cs phase + min (Int.fdiv (surplus * pr.2) total) pr.2)) := by
  unfold increaseStep
  rw [hcs]
  exact getEntry_setEntry_self _ _ _

theorem foldl_increaseStep_not_mem (a : PowerAllocator) (now : ℤ) (phase : Phase)
    (surplus total : ℤ) :
    ∀ (L : List (String × ℤ)) (res : Result) (id : String),
      id ∉ L.map Prod.fst →
      getEntry (L.foldl (a.increaseStep now phase surplus total) res) id
        = getEntry res id := by
  intro L
  induction L with
  | nil => intro res id _; rfl
  | cons pr rest ih =>
      intro res id hid
      simp only [List.map_cons, List.mem_cons, not_or] at hid
      rw [List.foldl_cons, ih _ id hid.2,
        increaseStep_getEntry_ne a now phase surplus total res pr id
          fun he => hid.1 he.symm]

theorem foldl_increaseStep_write (a : PowerAllocator) (now : ℤ) (phase : Phase)
    (surplus total : ℤ) :
    ∀ (L : List (String × ℤ)) (res : Result) (id : String)
      (c : ℤ) (cs : Phase → ℤ),
      (L.map Prod.fst).Nodup → (id, c) ∈ L →
      ((getEntry a.chargers id).bind fun st => st.get_current_limit now)
        = some cs →
      getEntry (L.foldl (a.increaseStep now phase surplus total) res) id =
        some (Function.update ((getEntry res id).getD cs) phase
          (cs phase + min (Int.fdiv (surplus * c) total) c)) := by
  intro L
  induction L with
  | nil => intro res id c cs _ hmem _; simp at hmem
  | cons pr rest ih =>
      intro res id c cs hn hmem hcs
      rw [List.map_cons] at hn
      have hn2 := List.nodup_cons.mp hn
      rw [List.foldl_cons]
      rcases List.mem_cons.mp hmem with h1 | h1
      · have hpr1 : pr.1 = id := by rw [← h1]
        have hpr2 : pr.2 = c := by rw [← h1]
        have hnotin : id ∉ rest.map Prod.fst := by rw [← hpr1]; exact hn2.1
        rw [foldl_increaseStep_not_mem a now phase surplus total rest _ id hnotin,
          ← hpr1, ← hpr2]
        rw [← hpr1] at hcs
        exact increaseStep_getEntry_self a now phase surplus total res pr cs hcs
      · have hpr1 : pr.1 ≠ id := by
          rintro rfl
          exact hn2.1 (List.mem_map.mpr ⟨(pr.1, c), h1, rfl⟩)
        rw [ih _ id c cs hn2.2 h1 hcs,
          increaseStep_getEntry_ne a now phase surplus total res pr id hpr1]

/-! ### Positivity of the potentials -/

theorem potentialIncreases_pos (a : PowerAllocator) (now : ℤ) (phase : Phase) :
    ∀ pr ∈ a.potentialIncreases now phase, 0 < pr.2 := by
  intro pr hpr
  rcases List.mem_filterMap.mp hpr with ⟨e, _, hfe⟩
  cases hgl : e.2.get_current_limit now with
  | none =>
      rw [hgl] at hfe
      exact absurd hfe (by simp)
  | some cs =>
      cases hrq : e.2.requested_current with
      | none =>
          rw [hgl, hrq] at hfe
          exact absurd hfe (by simp)
      | some req =>
          rw [hgl, hrq] at hfe
          have h2 : (if req phase > cs phase
              then some (e.1, req phase - cs phase) else none) = some pr := hfe
          by_cases hgt : req phase > cs phase
          · rw [if_pos hgt] at h2
            injection h2 with h2
            rw [← h2]
            omega
          · rw [if_neg hgt] at h2
            exact absurd h2 (by simp)

theorem totalPotential_nonneg (a : PowerAllocator) (now : ℤ) (phase : Phase) :
    0 ≤ a.totalPotential now phase := by
  unfold totalPotential
  apply List.sum_nonneg
  intro x hx
  rcases List.mem_map.mp hx with ⟨pr, hpr, hx2⟩
  rw [← hx2]
  exact le_of_lt (potentialIncreases_pos a now phase pr hpr)

theorem totalPotential_pos (a : PowerAllocator) (now : ℤ) (phase : Phase)
    (h : a.totalPotential now phase ≠ 0) : 0 < a.totalPotential now phase :=
  lt_of_le_of_ne (totalPotential_nonneg a now phase) (Ne.symm h)

/-- Casting an integer list sum to ℚ. -/
theorem intCast_list_sum (l : List ℤ) :
    ((l.sum : ℤ) : ℚ) = (l.map fun x : ℤ => (x : ℚ)).sum := by
  induction l with
  | nil => simp
  | cons x xs ih => simp [ih]

/-- The sum of the dispensed increases never exceeds the surplus. -/
theorem sum_increases_le_surplus (surplus P : ℤ) (pots : List ℤ)
    (hP : pots.sum = P) (hP0 : 0 < P) :
    (pots.map fun p : ℤ =>
      ⌊min ((surplus : ℚ) * (p : ℚ) / (P : ℚ)) ((p : ℚ))⌋).sum ≤ surplus := by
  have hPq : (0 : ℚ) < (P : ℚ) := by exact_mod_cast hP0
  have step1 : (((pots.map fun p : ℤ =>
        ⌊min ((surplus : ℚ) * (p : ℚ) / (P : ℚ)) ((p : ℚ))⌋).sum : ℤ) : ℚ)
      ≤ (pots.map fun p : ℤ => (surplus : ℚ) * (p : ℚ) / (P : ℚ)).sum := by
    rw [intCast_list_sum, List.map_map]
    apply List.sum_le_sum
    intro p _
    calc ((⌊min ((surplus : ℚ) * (p : ℚ) / (P : ℚ)) ((p : ℚ))⌋ : ℤ) : ℚ)
        ≤ min ((surplus : ℚ) * (p : ℚ) / (P : ℚ)) ((p : ℚ)) := Int.floor_le _
      _ ≤ (surplus : ℚ) * (p : ℚ) / (P : ℚ) := min_le_left _ _
  have step2 : (pots.map fun p : ℤ => (surplus : ℚ) * (p : ℚ) / (P : ℚ)).sum
      = (surplus : ℚ) / (P : ℚ) * (pots.map fun p : ℤ => (p : ℚ)).sum := by
    rw [← List.sum_map_mul_left]
    apply congrArg List.sum
    apply List.map_congr_left
    intro p _
    show (surplus : ℚ) * (p : ℚ) / (P : ℚ) = (surplus : ℚ) / (P : ℚ) * (p : ℚ)
    ring
  have step3 : (pots.map fun p : ℤ => (p : ℚ)).sum = (P : ℚ) := by
    rw [← intCast_list_sum, hP]
  have step4 : (((pots.map fun p : ℤ =>
        ⌊min ((surplus : ℚ) * (p : ℚ) / (P : ℚ)) ((p : ℚ))⌋).sum : ℤ) : ℚ)
      ≤ (surplus : ℚ) := by
    rw [step2, step3, div_mul_cancel₀ _ (ne_of_gt hPq)] at step1
    exact step1
  exact_mod_cast step4

/-! ### Claim theorems on the two distribution loops -/

/-- C2: for a phase with a negative delta, with T the sum of the
current limits over active chargers with a readable limit: if T = 0
the phase is skipped (the result dict is untouched); otherwise each
such charger's new setpoint for the phase is
`max(0, current[p] + floor(deficit * current[p] / T))`. -/
theorem distribute_cuts_proportional (a : PowerAllocator) (now : ℤ)
    (phase : Phase) (deficit : ℤ) (r0 : Result) (id : String)
    (st : ChargerState) (cs : Phase → ℤ)
    (hn : (a.chargers.map Prod.fst).Nodup)
    (_hneg : deficit < 0)
    (hchg : getEntry a.chargers id = some st)
    (hact : st.charger.can_charge = true)
    (hcs : st.get_current_limit now = some cs) :
    (a.totalCurrent now phase = 0 →
      a.distribute_cuts now phase deficit r0 = r0)
    ∧ (a.totalCurrent now phase ≠ 0 →
      ∃ e, getEntry (a.distribute_cuts now phase deficit r0) id = some e ∧
        e phase = max 0 (cs phase +
          ⌊(deficit : ℚ) * (cs phase : ℚ) / (a.totalCurrent now phase : ℚ)⌋)) := by
  have hbind : ((getEntry a.chargers id).bind fun s => s.get_current_limit now)
      = some cs := by rw [hchg]; exact hcs
  constructor
  · intro h0
    have h0' : ((a.chargerCurrents now phase).map Prod.snd).sum = 0 := h0
    unfold distribute_cuts
    rw [if_pos h0']
  · intro hT
    have hT' : ((a.chargerCurrents now phase).map Prod.snd).sum ≠ 0 := hT
    have hmem := @mem_chargerCurrents a now phase id st cs hchg hact hcs
    have hkn := keys_chargerCurrents_nodup a now phase hn
    refine ⟨Function.update ((getEntry r0 id).getD cs) phase
        (max 0 (cs phase +
          Int.fdiv (deficit * cs phase) (a.totalCurrent now phase))), ?_, ?_⟩
    · show getEntry (a.distribute_cuts now phase deficit r0) id = _
      unfold distribute_cuts
      rw [if_neg hT']
      exact foldl_cutStep_write a now phase deficit _ _ r0 id (cs phase) cs
        hkn hmem hbind
    · have hcast : ⌊((deficit * cs phase : ℤ) : ℚ)
          / ((a.totalCurrent now phase : ℤ) : ℚ)⌋
          = ⌊(deficit : ℚ) * (cs phase : ℚ) / (a.totalCurrent now phase : ℚ)⌋ := by
        congr 1
        push_cast
        ring
      rw [Function.update_same, fdiv_eq_floor_ratCast_div, hcast]

/-- C3: for a phase with a positive delta, with potentials
`req[p] − current[p]` over active chargers with readable limit and
requested current and P their sum: if P = 0 the phase is skipped;
otherwise each charger with positive potential is raised to
`current[p] + floor(min(surplus · potential / P, potential))`, never
above its requested current, and the dispensed increases sum to at
most the surplus. -/
theorem distribute_increases_proportional (a : PowerAllocator) (now : ℤ)
    (phase : Phase) (surplus : ℤ) (r0 : Result) (id : String)
    (st : ChargerState) (cs req : Phase → ℤ)
    (hn : (a.chargers.map Prod.fst).Nodup)
    (hpos : 0 < surplus)
    (hchg : getEntry a.chargers id = some st)
    (hact : st.charger.can_charge = true)
    (hcs : st.get_current_limit now = some cs)
    (hreq : st.requested_current = some req)
    (hgt : cs phase < req phase) :
    (a.totalPotential now phase = 0 →
      a.distribute_increases now phase surplus r0 = r0)
    ∧ (a.totalPotential now phase ≠ 0 →
      ∃ e, getEntry (a.distribute_increases now phase surplus r0) id = some e ∧
        e phase = cs phase +
          ⌊min ((surplus : ℚ) * (((req phase - cs phase : ℤ)) : ℚ)
              / (a.totalPotential now phase : ℚ))
            (((req phase - cs phase : ℤ)) : ℚ)⌋ ∧
        e phase ≤ req phase)
    ∧ ((a.potentialIncreases now phase).map fun pr : String × ℤ =>
        ⌊min ((surplus : ℚ) * ((pr.2 : ℤ) : ℚ)
            / (a.totalPotential now phase : ℚ)) (((pr.2 : ℤ)) : ℚ)⌋).sum
      ≤ surplus := by
  have hbind : ((getEntry a.chargers id).bind fun s => s.get_current_limit now)
      = some cs := by rw [hchg]; exact hcs
  refine ⟨?_, ?_, ?_⟩
  · intro h0
    have h0' : ((a.potentialIncreases now phase).map Prod.snd).sum = 0 := h0
    unfold distribute_increases
    rw [if_pos h0']
  · intro hT
    have hT' : ((a.potentialIncreases now phase).map Prod.snd).sum ≠ 0 := hT
    have hmem := @mem_potentialIncreases a now phase id st cs req hchg hact hcs hreq hgt
    have hkn := keys_potentialIncreases_nodup a now phase hn
    refine ⟨Function.update ((getEntry r0 id).getD cs) phase
        (cs phase + min (Int.fdiv (surplus * (req phase - cs phase))
          (a.totalPotential now phase)) (req phase - cs phase)), ?_, ?_, ?_⟩
    · show getEntry (a.distribute_increases now phase surplus r0) id = _
      unfold distribute_increases
      rw [if_neg hT']
      exact foldl_increaseStep_write a now phase surplus _ _ r0 id
        (req phase - cs phase) cs hkn hmem hbind
    · rw [Function.update_same, min_fdiv_eq_floor_min]
    · rw [Function.update_same]
      have h1 : min (Int.fdiv (surplus * (req phase - cs phase))
            (a.totalPotential now phase)) (req phase - cs phase)
          ≤ req phase - cs phase := min_le_right _ _
      omega
  · by_cases hT : a.totalPotential now phase = 0
    · have hempty : a.potentialIncreases now phase = [] := by
        by_contra hne
        obtain ⟨pr, hpr⟩ := List.exists_mem_of_ne_nil _ hne
        have h1 := potentialIncreases_pos a now phase pr hpr
        have h2 : pr.2 ≤ ((a.potentialIncreases now phase).map Prod.snd).sum := by
          apply List.single_le_sum
          · intro x hx
            rcases List.mem_map.mp hx with ⟨pr2, hpr2, hx2⟩
            rw [← hx2]
            exact le_of_lt (potentialIncreases_pos a now phase pr2 hpr2)
          · exact List.mem_map.mpr ⟨pr, hpr, rfl⟩
        have h3 : ((a.potentialIncreases now phase).map Prod.snd).sum = 0 := hT
        omega
      rw [hempty]
      simp
      omega
    · have hT0 := totalPotential_pos a now phase hT
      have hrw : ((a.potentialIncreases now phase).map fun pr : String × ℤ =>
            ⌊min ((surplus : ℚ) * ((pr.2 : ℤ) : ℚ)
                / (a.totalPotential now phase : ℚ)) (((pr.2 : ℤ)) : ℚ)⌋)
          = (((a.potentialIncreases now phase).map Prod.snd).map fun p : ℤ =>
            ⌊min ((surplus : ℚ) * (p : ℚ)
                / (a.totalPotential now phase : ℚ)) ((p : ℚ))⌋) := by
        rw [List.map_map]
        rfl
      rw [hrw]
      exact sum_increases_le_surplus surplus (a.totalPotential now phase)
        ((a.potentialIncreases now phase).map Prod.snd) rfl hT0

/-! ### Synced-phase flattening -/

theorem getEntry_allocate_current (a : PowerAllocator) (now : ℤ)
    (avail : Phase → Option ℤ) (id : String) :
    getEntry (a.allocate_current now avail) id
      = (getEntry (a.rawAllocate now avail) id).map (a.flattenEntry avail id) := by
  unfold allocate_current
  exact getEntry_map_value _ _ id

theorem flattenEntry_synced (a : PowerAllocator) (avail : Phase → Option ℤ)
    (id : String) (st : ChargerState) (e : Phase → ℤ) (m : ℤ)
    (hst : getEntry a.active_chargers id = some st)
    (hsync : st.charger.has_synced_phase_limits = true)
    (hmin : ((processedPhases avail).map e).min? = some m) :
    a.flattenEntry avail id e = fun _ => m := by
  unfold flattenEntry
  simp only [hst]
  rw [if_pos hsync]
  simp only [hmin]

/-! ### Non-negativity of the produced setpoints -/

theorem nonnegLimits_bind {a : PowerAllocator} {now : ℤ}
    (h : NonnegLimits a now) {k : String} {cs : Phase → ℤ}
    (hb : ((getEntry a.chargers k).bind fun st => st.get_current_limit now)
      = some cs) : ∀ p, 0 ≤ cs p := by
  intro p
  rcases hk : getEntry a.chargers k with _ | st
  · rw [hk] at hb
    simp at hb
  · rw [hk] at hb
    have hb2 : st.get_current_limit now = some cs := hb
    have h2 := h (k, st) (getEntry_mem hk) p
    rw [show ChargerState.get_current_limit (k, st).2 now
        = st.get_current_limit now from rfl, hb2] at h2
    simpa using h2

theorem cutStep_nonneg (a : PowerAllocator) (now : ℤ) (phase : Phase)
    (deficit total : ℤ) (res : Result) (pr : String × ℤ)
    (hlim : NonnegLimits a now)
    (hres : ∀ x ∈ res, ∀ p, 0 ≤ x.2 p) :
    ∀ x ∈ a.cutStep now phase deficit total res pr, ∀ p, 0 ≤ x.2 p := by
  intro x hx p
  unfold cutStep at hx
  rcases hbind : ((getEntry a.chargers pr.1).bind
      fun st => st.get_current_limit now) with _ | cs
  · rw [hbind] at hx
    exact hres x hx p
  · rw [hbind] at hx
    have hx2 : x ∈ setEntry res pr.1
        (Function.update ((getEntry res pr.1).getD cs) phase
          (max 0 (cs phase + Int.fdiv (deficit * pr.2) total))) := hx
    rcases mem_setEntry hx2 with h1 | h1
    · exact hres x h1 p
    · rw [h1]
      show 0 ≤ Function.update ((getEntry res pr.1).getD cs) phase
        (max 0 (cs phase + Int.fdiv (deficit * pr.2) total)) p
      by_cases hp : p = phase
      · rw [hp, Function.update_same]
        exact le_max_left _ _
      · rw [Function.update_noteq hp]
        rcases hge : getEntry res pr.1 with _ | b
        · simpa using nonnegLimits_bind hlim hbind p
        · simpa using hres (pr.1, b) (getEntry_mem hge) p

theorem increaseStep_nonneg (a : PowerAllocator) (now : ℤ) (phase : Phase)
    (surplus total : ℤ) (res : Result) (pr : String × ℤ)
    (hlim : NonnegLimits a now)
    (hs : 0 < surplus) (ht : 0 ≤ total) (hpr : 0 ≤ pr.2)
    (hres : ∀ x ∈ res, ∀ p, 0 ≤ x.2 p) :
    ∀ x ∈ a.increaseStep now phase surplus total res pr, ∀ p, 0 ≤ x.2 p := by
  intro x hx p
  unfold increaseStep at hx
  rcases hbind : ((getEntry a.chargers pr.1).bind
      fun st => st.get_current_limit now) with _ | cs
  · rw [hbind] at hx
    exact hres x hx p
  · rw [hbind] at hx
    have hx2 : x ∈ setEntry res pr.1
        (Function.update ((getEntry res pr.1).getD cs) phase
          (cs phase + min (Int.fdiv (surplus * pr.2) total) pr.2)) := hx
    rcases mem_setEntry hx2 with h1 | h1
    · exact hres x h1 p
    · rw [h1]
      show 0 ≤ Function.update ((getEntry res pr.1).getD cs) phase
        (cs phase + min (Int.fdiv (surplus * pr.2) total) pr.2) p
      by_cases hp : p = phase
      · rw [hp, Function.update_same]
        have h2 : 0 ≤ cs phase := nonnegLimits_bind hlim hbind phase
        have h3 : 0 ≤ Int.fdiv (surplus * pr.2) total :=
          Int.fdiv_nonneg (by positivity) ht
        have h4 : 0 ≤ min (Int.fdiv (surplus * pr.2) total) pr.2 :=
          le_min h3 hpr
        omega
      · rw [Function.update_noteq hp]
        rcases hge : getEntry res pr.1 with _ | b
        · simpa using nonnegLimits_bind hlim hbind p
        · simpa using hres (pr.1, b) (getEntry_mem hge) p

theorem foldl_cutStep_nonneg (a : PowerAllocator) (now : ℤ) (phase : Phase)
    (deficit total : ℤ) (hlim : NonnegLimits a now) :
    ∀ (L : List (String × ℤ)) (res : Result),
      (∀ x ∈ res, ∀ p, 0 ≤ x.2 p) →
      ∀ x ∈ L.foldl (a.cutStep now phase deficit total) res, ∀ p, 0 ≤ x.2 p := by
  intro L
  induction L with
  | nil => intro res hres; exact hres
  | cons pr rest ih =>
      intro res hres
      rw [List.foldl_cons]
      exact ih _ (cutStep_nonneg a now phase deficit total res pr hlim hres)

theorem foldl_increaseStep_nonneg (a : PowerAllocator) (now : ℤ) (phase : Phase)
    (surplus total : ℤ) (hlim : NonnegLimits a now)
    (hs : 0 < surplus) (ht : 0 ≤ total) :
    ∀ (L : List (String × ℤ)) (res : Result),
      (∀ x ∈ L, 0 ≤ x.2) →
      (∀ x ∈ res, ∀ p, 0 ≤ x.2 p) →
      ∀ x ∈ L.foldl (a.increaseStep now phase surplus total) res,
        ∀ p, 0 ≤ x.2 p := by
  intro L
  induction L with
  | nil => intro res _ hres; exact hres
  | cons pr rest ih =>
      intro res hL hres
      rw [List.foldl_cons]
      apply ih _ fun x hx => hL x (List.mem_cons_of_mem _ hx)
      exact increaseStep_nonneg a now phase surplus total res pr hlim hs ht
        (hL pr (List.mem_cons_self _ _)) hres

theorem allocatePhase_nonneg (a : PowerAllocator) (now : ℤ)
    (avail : Phase → Option ℤ) (res : Result) (phase : Phase)
    (hlim : NonnegLimits a now)
    (hres : ∀ x ∈ res, ∀ p, 0 ≤ x.2 p) :
    ∀ x ∈ a.allocatePhase now avail res phase, ∀ p, 0 ≤ x.2 p := by
  intro x hx p
  unfold allocatePhase at hx
  rcases hav : avail phase with _ | av
  · simp only [hav] at hx
    exact hres x hx p
  · simp only [hav] at hx
    by_cases hneg : av < 0
    · rw [if_pos hneg] at hx
      unfold distribute_cuts at hx
      by_cases h0 : ((a.chargerCurrents now phase).map Prod.snd).sum = 0
      · rw [if_pos h0] at hx
        exact hres x hx p
      · rw [if_neg h0] at hx
        exact foldl_cutStep_nonneg a now phase av _ hlim _ res hres x hx p
    · rw [if_neg hneg] at hx
      by_cases hposa : av > 0
      · rw [if_pos hposa] at hx
        unfold distribute_increases at hx
        by_cases h0 : ((a.potentialIncreases now phase).map Prod.snd).sum = 0
        · rw [if_pos h0] at hx
          exact hres x hx p
        · rw [if_neg h0] at hx
          exact foldl_increaseStep_nonneg a now phase av _ hlim hposa
            (totalPotential_nonneg a now phase) _ res
            (fun y hy => le_of_lt (potentialIncreases_pos a now phase y hy))
            hres x hx p
      · rw [if_neg hposa] at hx
        exact hres x hx p

theorem rawAllocate_nonneg (a : PowerAllocator) (now : ℤ)
    (avail : Phase → Option ℤ) (hlim : NonnegLimits a now) :
    ∀ x ∈ a.rawAllocate now avail, ∀ p, 0 ≤ x.2 p := by
  unfold rawAllocate
  have hgen : ∀ (L : List Phase) (res : Result),
      (∀ x ∈ res, ∀ p, 0 ≤ x.2 p) →
      ∀ x ∈ L.foldl (a.allocatePhase now avail) res, ∀ p, 0 ≤ x.2 p := by
    intro L
    induction L with
    | nil => intro res hres; exact hres
    | cons ph rest ih =>
        intro res hres
        rw [List.foldl_cons]
        exact ih _ (allocatePhase_nonneg a now avail res ph hlim hres)
  exact hgen phaseList [] (by intro x hx; simp at hx)

theorem flattenEntry_nonneg (a : PowerAllocator) (avail : Phase → Option ℤ)
    (id : String) (e : Phase → ℤ) (he : ∀ p, 0 ≤ e p) :
    ∀ p, 0 ≤ a.flattenEntry avail id e p := by
  intro p
  unfold flattenEntry
  rcases hst : getEntry a.active_chargers id with _ | st
  · simp only [hst]
    exact he p
  · simp only [hst]
    by_cases hsync : st.charger.has_synced_phase_limits = true
    · rw [if_pos hsync]
      rcases hmin : ((processedPhases avail).map e).min? with _ | m
      · simp only [hmin]
        exact he p
      · simp only [hmin]
        have hm : m ∈ (processedPhases avail).map e :=
          List.min?_mem (fun x y => min_choice x y) hmin
        rcases List.mem_map.mp hm with ⟨q, _, hq⟩
        show 0 ≤ m
        rw [← hq]
        exact he q
    · rw [if_neg hsync]
      exact he p

/-- C1 (amended): every per-phase value produced by
`_distribute_cuts` / `_distribute_increases` and flattened by
`_allocate_current` — hence every dispatched value — is non-negative,
provided all readable charger limits are non-negative.  The
`fuse_size` upper bound of the original claim does not hold (see the
counterexample): increases are capped by `requested_current`, which
the allocator never compares against the fuse size. -/
theorem allocate_current_nonneg (a : PowerAllocator) (now : ℤ)
    (avail : Phase → Option ℤ) (hlim : NonnegLimits a now) :
    ∀ x ∈ a.allocate_current now avail, ∀ p, 0 ≤ x.2 p := by
  intro x hx p
  unfold allocate_current at hx
  rcases List.mem_map.mp hx with ⟨e, he, hx2⟩
  rw [← hx2]
  exact flattenEntry_nonneg a avail e.1 e.2
    (fun q => rawAllocate_nonneg a now avail hlim e he q) p

/-- C4 (amended): for a synced-phase charger appearing in the
allocation result, `_allocate_current` returns one scalar on all
three phases: the minimum of the charger's computed per-phase values
over the phases PRESENT in `available_currents` — including phases
whose delta is zero, not only the phases with a nonzero delta as the
original claim reads (see the counterexample). -/
theorem allocate_current_synced_flatten (a : PowerAllocator) (now : ℤ)
    (avail : Phase → Option ℤ) (id : String) (st : ChargerState)
    (e : Phase → ℤ) (m : ℤ)
    (hn : (a.chargers.map Prod.fst).Nodup)
    (hchg : getEntry a.chargers id = some st)
    (hact : st.charger.can_charge = true)
    (hsync : st.charger.has_synced_phase_limits = true)
    (hraw : getEntry (a.rawAllocate now avail) id = some e)
    (hmin : ((processedPhases avail).map e).min? = some m) :
    getEntry (a.allocate_current now avail) id = some fun _ => m := by
  rw [getEntry_allocate_current, hraw]
  show some (a.flattenEntry avail id e) = _
  rw [flattenEntry_synced a avail id st e m
    (getEntry_active a hn hchg hact) hsync hmin]

end PowerAllocator


/-! ### Coordinator gating -/

/-- C5: a proposal in which some phase is strictly lower than the
current setting is applied immediately:
`_may_update_charger_settings` returns true regardless of the stored
timestamps and of the hysteresis configuration. -/
theorem may_update_decrease_immediate (lut ld : Option ℤ) (hyst : ℤ)
    (newS curS : Phase → ℤ) (ts : ℤ)
    (hdec : ∃ p, newS p < curS p) :
    may_update_charger_settings lut ld hyst newS curS ts = true := by
  cases lut with
  | none => rfl
  | some lu =>
      have hany : ((phaseAny fun p => decide (newS p < curS p)) = true) := by
        apply (phaseAny_iff _).mpr
        obtain ⟨p, hp⟩ := hdec
        exact ⟨p, decide_eq_true hp⟩
      simp only [may_update_charger_settings]
      rw [if_pos hany]

/-- C6: for a proposal without any decrease and a recorded last
update time: it is deferred while `ts − last_update ≤ 20 s`; after
that it is applied iff some phase increases and
`ts − last_decrease > hysteresis_minutes · 60`, where a missing
`last_decrease_time` falls back to `last_charger_update_time` — so an
initial increase is blocked until the hysteresis has elapsed since
the last update. -/
theorem may_update_no_decrease_gating (lu : ℤ) (ld : Option ℤ) (hyst : ℤ)
    (newS curS : Phase → ℤ) (ts : ℤ)
    (hnodec : ∀ p, ¬newS p < curS p) :
    (ts - lu ≤ MIN_CHARGER_UPDATE_DELAY →
      may_update_charger_settings (some lu) ld hyst newS curS ts = false)
    ∧ (¬ts - lu ≤ MIN_CHARGER_UPDATE_DELAY →
      (may_update_charger_settings (some lu) ld hyst newS curS ts = true ↔
        (∃ p, newS p > curS p) ∧ ts - ld.getD lu > hyst * 60)) := by
  have hanyF : (phaseAny fun p => decide (newS p < curS p)) = false := by
    apply Bool.eq_false_iff.mpr
    intro hT
    rcases (phaseAny_iff _).mp hT with ⟨p, hp⟩
    exact hnodec p (of_decide_eq_true hp)
  have hnotc : ¬((phaseAny fun p => decide (newS p < curS p)) = true) := by
    rw [hanyF]
    exact Bool.false_ne_true
  constructor
  · intro hrecent
    simp only [may_update_charger_settings]
    rw [if_neg hnotc, if_pos hrecent]
  · intro hlate
    simp only [may_update_charger_settings]
    rw [if_neg hnotc, if_neg hlate]
    by_cases hcond : ((phaseAny fun p => decide (newS p > curS p))
        && decide (ts - ld.getD lu > hyst * 60)) = true
    · rw [if_pos hcond]
      obtain ⟨h1, h2⟩ := Bool.and_eq_true_iff.mp hcond
      rcases (phaseAny_iff _).mp h1 with ⟨p, hp⟩
      exact iff_of_true rfl ⟨⟨p, of_decide_eq_true hp⟩, of_decide_eq_true h2⟩
    · rw [if_neg hcond]
      apply iff_of_false Bool.false_ne_true
      rintro ⟨⟨p, hp⟩, h2⟩
      exact hcond (Bool.and_eq_true_iff.mpr
        ⟨(phaseAny_iff _).mpr ⟨p, decide_eq_true hp⟩, decide_eq_true h2⟩)

/-! ### ChargerState behaviour -/

/-- C7: within the settle window after a dispatch,
`get_current_limit` returns exactly the last applied current,
independent of the adapter's report; outside the window it returns
the adapter's reported limit. -/
theorem get_current_limit_settle_shield (s : ChargerState) (now : ℤ) :
    (now - s.last_update_time < s.charger.current_change_settle_time →
      s.get_current_limit now = s.last_applied_current)
    ∧ (¬now - s.last_update_time < s.charger.current_change_settle_time →
      s.get_current_limit now = s.charger.get_current_limit) := by
  constructor
  · intro h
    unfold ChargerState.get_current_limit
    rw [if_pos h]
  · intro h
    unfold ChargerState.get_current_limit
    rw [if_neg h]

/-- C8 (amended): when a new charging session is detected but the
adapter cannot report its maximum, `requested_current` is left
unchanged and no error occurs — but `active_session` is still set to
true, so the deferred reset is never retried: on any later call in an
ongoing session `requested_current` either stays unchanged or follows
an observed current reading, never the adapter's maximum. -/
theorem new_session_reset_skipped_on_missing_max (s : ChargerState) (now : ℤ)
    (cs : Phase → ℤ)
    (hcs : s.get_current_limit now = some cs)
    (hch : s.charger.can_charge = true)
    (hsess : s.active_session = false)
    (hmax : s.charger.get_max_current_limit = none) :
    ((s.detect_manual_override now).requested_current = s.requested_current
      ∧ (s.detect_manual_override now).active_session = true)
    ∧ ∀ (s2 : ChargerState) (now2 : ℤ) (cs2 : Phase → ℤ),
        s2.get_current_limit now2 = some cs2 →
        s2.active_session = true →
        (s2.detect_manual_override now2).requested_current
            = s2.requested_current
        ∨ (s2.detect_manual_override now2).requested_current = some cs2 := by
  constructor
  · unfold ChargerState.detect_manual_override
    simp only [hcs, hch, hsess, hmax]
    exact ⟨rfl, trivial⟩
  · intro s2 now2 cs2 hcs2 hsess2
    unfold ChargerState.detect_manual_override
    simp only [hcs2, hsess2]
    by_cases hch2 : s2.charger.can_charge = true
    · simp only [hch2]
      by_cases hcond : ((match s2.last_applied_current with
            | some la => phaseAny fun p => cs2 p != la p
            | none => false)
          && (match s2.requested_current with
              | some r => !eqDict cs2 r
              | none => true)) = true
      · rw [if_pos hcond]
        exact Or.inr rfl
      · rw [if_neg hcond]
        exact Or.inl rfl
    · have hch2f : s2.charger.can_charge = false := by
        revert hch2
        cases s2.charger.can_charge <;> simp
      simp only [hch2f]
      by_cases hcond : ((match s2.last_applied_current with
            | some la => phaseAny fun p => cs2 p != la p
            | none => false)
          && (match s2.requested_current with
              | some r => !eqDict cs2 r
              | none => true)) = true
      · rw [if_pos hcond]
        exact Or.inr rfl
      · rw [if_neg hcond]
        exact Or.inl rfl

/-- C9: in an ongoing session, a manual override is recorded exactly
when the observed reading differs from `last_applied_current` on some
phase AND differs from `requested_current`; when it equals either of
the two, `requested_current` and `manual_override_detected` are left
unchanged. -/
theorem detect_manual_override_dual_difference (s : ChargerState) (now : ℤ)
    (cs la req : Phase → ℤ)
    (hch : s.charger.can_charge = true)
    (hsess : s.active_session = true)
    (hcs : s.get_current_limit now = some cs)
    (hla : s.last_applied_current = some la)
    (hreq : s.requested_current = some req) :
    (((∃ p, cs p ≠ la p) ∧ (∃ p, cs p ≠ req p)) →
      (s.detect_manual_override now).requested_current = some cs
      ∧ (s.detect_manual_override now).manual_override_detected = true)
    ∧ (((∀ p, cs p = la p) ∨ (∀ p, cs p = req p)) →
      (s.detect_manual_override now).requested_current = some req
      ∧ (s.detect_manual_override now).manual_override_detected
          = s.manual_override_detected) := by
  unfold ChargerState.detect_manual_override
  simp only [hcs, hch, hsess, hla, hreq]
  constructor
  · rintro ⟨⟨p1, hp1⟩, ⟨p2, hp2⟩⟩
    have hcond : ((phaseAny fun p => cs p != la p) && !eqDict cs req) = true := by
      apply Bool.and_eq_true_iff.mpr
      constructor
      · exact (phaseAny_iff _).mpr ⟨p1, bne_iff_ne.mpr hp1⟩
      · have hf : eqDict cs req = false := by
          apply Bool.eq_false_iff.mpr
          intro he
          exact hp2 ((eqDict_iff _ _).mp he p2)
        rw [hf]
        rfl
    rw [if_pos hcond]
    exact ⟨rfl, rfl⟩
  · intro hsame
    have hcond : ((phaseAny fun p => cs p != la p) && !eqDict cs req) = false := by
      apply Bool.eq_false_iff.mpr
      intro hT
      obtain ⟨h1, h2⟩ := Bool.and_eq_true_iff.mp hT
      rcases hsame with hall | hall
      · rcases (phaseAny_iff _).mp h1 with ⟨p, hp⟩
        exact bne_iff_ne.mp hp (hall p)
      · have he : eqDict cs req = true := (eqDict_iff _ _).mpr hall
        rw [he] at h2
        exact Bool.false_ne_true h2
    have hnotc : ¬(((phaseAny fun p => cs p != la p) && !eqDict cs req) = true) := by
      rw [hcond]
      exact Bool.false_ne_true
    rw [if_neg hnotc]
    exact ⟨hreq, rfl⟩

/-- C10: for a present charger id, `update_applied_current` sets
`last_applied_current` and `last_update_time` together in one step,
changing no other field and no other charger; for an unknown id the
subscript after the warning raises `KeyError` (modelled as `none`)
and no state changes. -/
theorem update_applied_current_spec (a : PowerAllocator) (id : String)
    (applied : Phase → ℤ) (ts : ℤ) :
    (getEntry a.chargers id = none →
      a.update_applied_current id applied ts = none)
    ∧ ∀ st, getEntry a.chargers id = some st →
      ∃ a2, a.update_applied_current id applied ts = some a2
        ∧ getEntry a2.chargers id
            = some { st with
                last_applied_current := some applied
                last_update_time := ts }
        ∧ ∀ j, j ≠ id → getEntry a2.chargers j = getEntry a.chargers j := by
  constructor
  · intro h
    unfold PowerAllocator.update_applied_current
    simp only [h]
  · intro st hst
    refine ⟨⟨a.chargers.map fun e =>
      (e.1,
        if e.1 = id then
          { e.2 with
              last_applied_current := some applied
              last_update_time := ts }
        else e.2)⟩, ?_, ?_, ?_⟩
    · unfold PowerAllocator.update_applied_current
      simp only [hst]
    · rw [show (⟨a.chargers.map fun e =>
          (e.1,
            if e.1 = id then
              { e.2 with
                  last_applied_current := some applied
                  last_update_time := ts }
            else e.2)⟩ : PowerAllocator).chargers
          = a.chargers.map fun e =>
            (e.1,
              if e.1 = id then
                { e.2 with
                    last_applied_current := some applied
                    last_update_time := ts }
              else e.2) from rfl]
      rw [getEntry_map_value a.chargers (fun k v =>
        if k = id then
          { v with
              last_applied_current := some applied
              last_update_time := ts }
        else v) id]
      rw [hst]
      simp
    · intro j hj
      rw [show (⟨a.chargers.map fun e =>
          (e.1,
            if e.1 = id then
              { e.2 with
                  last_applied_current := some applied
                  last_update_time := ts }
            else e.2)⟩ : PowerAllocator).chargers
          = a.chargers.map fun e =>
            (e.1,
              if e.1 = id then
                { e.2 with
                    last_applied_current := some applied
                    last_update_time := ts }
              else e.2) from rfl]
      rw [getEntry_map_value a.chargers (fun k v =>
        if k = id then
          { v with
              last_applied_current := some applied
              last_update_time := ts }
        else v) j]
      rcases getEntry a.chargers j with _ | v
      · rfl
      · simp [hj]


/-! ### Witnesses and counterexamples -/

/-- C1 counterexample: with fuse size 25 A and a zero meter reading,
the coordinator offers a delta of 25 (conservative mode passes the
availability through unchanged); `_distribute_increases` raises the
charger toward its requested 32 A, and the produced per-phase value
32 exceeds the fuse size. -/
theorem allocate_increase_exceeds_fuse_cex :
    get_available_current_for_phase 25 (some 0) = some 25
    ∧ ((getEntry (alloc32.allocate_current 100 avail32) "c1").map
        fun e => e Phase.L1) = some 32
    ∧ ¬(32 : ℤ) ≤ 25 :=
  ⟨by decide, by decide, by decide⟩

/-- C1 witness: the non-negativity theorem applied to the concrete
two-charger cut scenario. -/
theorem allocate_current_nonneg_witness :
    (0 : ℤ) ≤ ((getEntry (allocTwo.allocate_current 100 availTwo) "c1").getD
      fun _ => 0) Phase.L1 := by
  rcases he : getEntry (allocTwo.allocate_current 100 availTwo) "c1" with _ | e
  · simp
  · exact PowerAllocator.allocate_current_nonneg allocTwo 100 availTwo
      (by decide) ("c1", e) (getEntry_mem he) Phase.L1

/-- C2 witness: spec scenario 3 — chargers at 10 A and 16 A, delta
−4 A on L1; the first charger is cut to 8 A. -/
theorem distribute_cuts_proportional_witness :
    (∃ e, getEntry (allocTwo.distribute_cuts 100 Phase.L1 (-4) []) "c1" = some e
      ∧ e Phase.L1 = 8)
    ∧ ∃ f, getEntry (allocTwo.distribute_cuts 100 Phase.L1 (-4) []) "c2" = some f
      ∧ f Phase.L1 = 13 := by
  constructor
  · obtain ⟨e, he, hval⟩ := (PowerAllocator.distribute_cuts_proportional allocTwo
      100 Phase.L1 (-4) [] "c1" (mkState (mkCharger 10 16 false) 10)
      (fun _ => 10) (by decide) (by decide) rfl rfl rfl).2 (by decide)
    refine ⟨e, he, ?_⟩
    rw [hval, show allocTwo.totalCurrent 100 Phase.L1 = 26 from by decide]
    rw [show ((-4 : ℤ) : ℚ) * (((fun _ : Phase => (10 : ℤ)) Phase.L1 : ℤ) : ℚ)
        / ((26 : ℤ) : ℚ) = (((-40 : ℤ)) : ℚ) / ((26 : ℤ) : ℚ) from by
      push_cast
      norm_num]
    rw [← fdiv_eq_floor_ratCast_div]
    decide
  · obtain ⟨f, hf, hval⟩ := (PowerAllocator.distribute_cuts_proportional allocTwo
      100 Phase.L1 (-4) [] "c2" (mkState (mkCharger 16 16 false) 16)
      (fun _ => 16) (by decide) (by decide) rfl rfl rfl).2 (by decide)
    refine ⟨f, hf, ?_⟩
    rw [hval, show allocTwo.totalCurrent 100 Phase.L1 = 26 from by decide]
    rw [show ((-4 : ℤ) : ℚ) * (((fun _ : Phase => (16 : ℤ)) Phase.L1 : ℤ) : ℚ)
        / ((26 : ℤ) : ℚ) = (((-64 : ℤ)) : ℚ) / ((26 : ℤ) : ℚ) from by
      push_cast
      norm_num]
    rw [← fdiv_eq_floor_ratCast_div]
    decide

/-- C3 witness: recovering chargers at 7 A and 8 A with requested
16 A and a surplus of 5 A on L1; the first charger rises to 9 A,
below its requested current. -/
theorem distribute_increases_proportional_witness :
    ∃ e, getEntry (allocRecover.distribute_increases 100 Phase.L1 5 []) "c1"
      = some e ∧ e Phase.L1 = 9 := by
  obtain ⟨e, he, hval, _⟩ := (PowerAllocator.distribute_increases_proportional
    allocRecover 100 Phase.L1 5 [] "c1" (mkState (mkCharger 7 16 false) 16)
    (fun _ => 7) (fun _ => 16) (by decide) (by decide) rfl rfl rfl rfl
    (by decide)).2.1 (by decide)
  refine ⟨e, he, ?_⟩
  rw [hval, show allocRecover.totalPotential 100 Phase.L1 = 17 from by decide]
  rw [← min_fdiv_eq_floor_min]
  decide

/-- C4 counterexample: a synced charger with per-phase limits
{L1:10, L2:5, L3:3} and deltas {L1:+2, L3:0}.  L1 is the only phase
with a nonzero delta and its computed value is 12, yet the dispatched
setpoint is {3,3,3}: the code's minimum also ranges over the present
zero-delta phase L3. -/
theorem synced_flatten_zero_delta_cex :
    claimProcessedPhases availSync = [Phase.L1]
    ∧ ((getEntry (allocSync.rawAllocate 100 availSync) "c1").map
        fun e => e Phase.L1) = some 12
    ∧ ((getEntry (allocSync.allocate_current 100 availSync) "c1").map
        fun e => (e Phase.L1, e Phase.L2, e Phase.L3)) = some (3, 3, 3)
    ∧ ((3 : ℤ), (3 : ℤ), (3 : ℤ)) ≠ ((12 : ℤ), (12 : ℤ), (12 : ℤ)) :=
  ⟨by decide, by decide, by decide, by decide⟩

/-- C4 witness: spec scenario 4 — a synced charger at 16 A with
deltas {L1:-1, L2:+2, L3:0} is dispatched the flattened setpoint
{15, 15, 15}. -/
theorem allocate_current_synced_flatten_witness :
    getEntry (allocSync16.allocate_current 100 availSpec4) "c1"
      = some fun _ => (15 : ℤ) := by
  apply PowerAllocator.allocate_current_synced_flatten allocSync16 100
    availSpec4 "c1" (mkState (mkCharger 16 32 true) 18) _ 15 (by decide)
    rfl rfl rfl rfl
  decide

/-- C5 witness: a decrease proposed 5 s after the last update is
applied immediately. -/
theorem may_update_decrease_immediate_witness :
    may_update_charger_settings (some 0) none 15 (fun _ => 10) (fun _ => 12) 5
      = true :=
  may_update_decrease_immediate (some 0) none 15 _ _ 5 ⟨Phase.L1, by decide⟩

/-- C6 witness: with no recorded decrease, an increase 100 s after
the last update is still deferred by the 15-minute hysteresis. -/
theorem may_update_no_decrease_gating_witness :
    may_update_charger_settings (some 0) none 15 (fun _ => 12) (fun _ => 10) 100
      = false := by
  have h := (may_update_no_decrease_gating 0 none 15 (fun _ => 12)
    (fun _ => 10) 100 (by decide)).2 (by decide)
  rw [← Bool.not_eq_true]
  intro hT
  exact absurd (h.mp hT).2 (by decide)

/-- C7 witness: 5 s after a dispatch (settle time 10 s) the state
reports the applied 27 A, not the adapter's 32 A. -/
theorem get_current_limit_settle_shield_witness :
    ChargerState.get_current_limit slowA 5 = some fun _ => (27 : ℤ) := by
  rw [(get_current_limit_settle_shield slowA 5).1 (by decide)]
  rfl

/-- C8 counterexample: the adapter maximum is unavailable at session
start; at the next call the maximum (16 A) is available, but
`requested_current` remains 10 A — the reset claimed by the spec
never happens. -/
theorem new_session_reset_never_retried_cex :
    ((ChargerState.detect_manual_override
        (withMax (ChargerState.detect_manual_override noMaxState 100)) 101
      ).requested_current.map fun r => r Phase.L1) = some 10
    ∧ (10 : ℤ) ≠ 16 :=
  ⟨by decide, by decide⟩

/-- C8 witness: the amended theorem applied at the session start with
the maximum unavailable. -/
theorem new_session_reset_skipped_on_missing_max_witness :
    (ChargerState.detect_manual_override noMaxState 100).requested_current
      = noMaxState.requested_current
    ∧ (ChargerState.detect_manual_override noMaxState 100).active_session
      = true :=
  (new_session_reset_skipped_on_missing_max noMaxState 100 (fun _ => 10)
    rfl rfl rfl rfl).1

/-- C9 witness: spec scenario 6 — requested 32 A, applied 27 A; a
reading of 32 A (equal to requested) and a reading of 27 A (equal to
last applied) both leave `requested_current` at 32 A. -/
theorem detect_manual_override_dual_difference_witness :
    (ChargerState.detect_manual_override slowA 100).requested_current
      = some (fun _ => (32 : ℤ))
    ∧ (ChargerState.detect_manual_override slowB 100).requested_current
      = some (fun _ => (32 : ℤ)) :=
  ⟨((detect_manual_override_dual_difference slowA 100 (fun _ => 32)
      (fun _ => 27) (fun _ => 32) rfl rfl rfl rfl rfl).2
      (Or.inr fun _ => rfl)).1,
   ((detect_manual_override_dual_difference slowB 100 (fun _ => 27)
      (fun _ => 27) (fun _ => 32) rfl rfl rfl rfl rfl).2
      (Or.inl fun _ => rfl)).1⟩

/-- C10 witness: updating the applied current of `c1` records the new
limits and timestamp together. -/
theorem update_applied_current_spec_witness :
    ∃ a2, allocTwo.update_applied_current "c1" (fun _ => 5) 200 = some a2
      ∧ getEntry a2.chargers "c1"
          = some { mkState (mkCharger 10 16 false) 10 with
              last_applied_current := some fun _ => (5 : ℤ)
              last_update_time := 200 } := by
  obtain ⟨a2, h1, h2, _⟩ := (update_applied_current_spec allocTwo "c1"
    (fun _ => 5) 200).2 (mkState (mkCharger 10 16 false) 10) rfl
  exact ⟨a2, h1, h2⟩

end EvseLB
